import Mathlib

/-!
Verification of the feature-selection step of the single-cell best-practices
notebook (`jupyter-book/preprocessing_visualization/feature_selection.ipynb`).

The notebook's executable logic (cell `e349f348`) is

  idx = binomial_deviance.argsort()[-4000:]
  mask = np.zeros(adata.var_names.shape, dtype=bool)
  mask[idx] = True
  adata.var["highly_deviant"] = mask
  adata.var["binomial_deviance"] = binomial_deviance

preceded by `sce = devianceFeatureSelection(adata, assay="X")` from the
external R package `scry` (not part of this repository).  The spec names the
parametrised form of the cell `select_top_k(scores, k)` and the deviance
computation `rank(counts)`.

We embed the cell shallowly: `argsort` is the ascending argsort of a score
vector (ties by original index, i.e. the stable ascending sort — the unique
permutation sorted by the lexicographic key (score, index)); `sliceLast`
is the Python slice `l[-k:]` — note that for `k = 0` Python's `l[-0:]`
is the WHOLE list, not the empty one; `select_top_k` builds the boolean
mask `mask[idx] = True` over `np.zeros(n, bool)`.
-/

/-- Lexicographic comparison of (index, score) pairs: by score ascending,
ties broken by original index. This is the ordering realised by a stable
ascending argsort. -/
def scoreLe {α : Type} [LinearOrder α] (p q : ℕ × α) : Prop :=
  p.2 < q.2 ∨ (p.2 = q.2 ∧ p.1 ≤ q.1)

instance scoreLeDecidable {α : Type} [LinearOrder α] :
    DecidableRel (scoreLe (α := α)) := fun p q => by
  unfold scoreLe; infer_instance

instance scoreLeTotal {α : Type} [LinearOrder α] :
    IsTotal (ℕ × α) (scoreLe (α := α)) where
  total p q := by
    rcases lt_trichotomy p.2 q.2 with h | h | h
    · exact Or.inl (Or.inl h)
    · rcases le_total p.1 q.1 with h1 | h1
      · exact Or.inl (Or.inr ⟨h, h1⟩)
      · exact Or.inr (Or.inr ⟨h.symm, h1⟩)
    · exact Or.inr (Or.inl h)

instance scoreLeTrans {α : Type} [LinearOrder α] :
    IsTrans (ℕ × α) (scoreLe (α := α)) where
  trans p q r hpq hqr := by
    rcases hpq with h1 | ⟨h1, h1i⟩
    · rcases hqr with h2 | ⟨h2, _⟩
      · exact Or.inl (h1.trans h2)
      · exact Or.inl (h2 ▸ h1)
    · rcases hqr with h2 | ⟨h2, h2i⟩
      · exact Or.inl (h1 ▸ h2)
      · exact Or.inr ⟨h1.trans h2, h1i.trans h2i⟩

instance scoreLeAntisymm {α : Type} [LinearOrder α] :
    IsAntisymm (ℕ × α) (scoreLe (α := α)) where
  antisymm p q hpq hqp := by
    rcases hpq with h1 | ⟨h1, h1i⟩
    · rcases hqp with h2 | ⟨h2, _⟩
      · exact absurd (h1.trans h2) (lt_irrefl _)
      · exact absurd h1 (h2 ▸ lt_irrefl _)
    · rcases hqp with h2 | ⟨h2, h2i⟩
      · exact absurd h2 (h1 ▸ lt_irrefl _)
      · exact Prod.ext (le_antisymm h1i h2i) h1

/-- The function `argsort scores`: the list of indices of `scores` ordered by score
ascending, ties broken by original index order (the stable ascending sort
of indices, as produced by `numpy.argsort` on the notebook's score vector). -/
def argsort {α : Type} [LinearOrder α] (scores : List α) : List ℕ :=
  (List.insertionSort scoreLe scores.enum).map Prod.fst

/-- The Python slice `l[-k:]` for a non-negative integer `k`.
For `k = 0` Python evaluates `l[-0:] = l[0:] = l` (the whole list); for
`k ≥ 1` it is the last `min k l.length` elements. -/
def sliceLast {α : Type} (l : List α) (k : ℕ) : List α :=
  if k = 0 then l else l.drop (l.length - k)

/-- The notebook cell `e349f348`, parametrised by `k` (the literal 4000 in
the source): `idx = scores.argsort()[-k:]; mask = np.zeros(n, dtype=bool);
mask[idx] = True`. -/
def select_top_k {α : Type} [LinearOrder α] (scores : List α) (k : ℕ) :
    List Bool :=
  (List.range scores.length).map fun g => decide (g ∈ sliceLast (argsort scores) k)

example : argsort ([5, 3, 7, 3] : List ℤ) = [1, 3, 0, 2] := by decide

example : select_top_k ([5, 3, 7, 3] : List ℤ) 2 = [true, false, true, false] := by
  decide

example : select_top_k ([5, 3] : List ℤ) 0 = [true, true] := by decide

/-! ### Basic facts about `argsort`, `sliceLast` and the mask -/

theorem argsort_perm_range {α : Type} [LinearOrder α] (scores : List α) :
    List.Perm (argsort scores) (List.range scores.length) := by
  have h := (List.perm_insertionSort (scoreLe (α := α)) scores.enum).map Prod.fst
  rwa [List.enum_map_fst] at h

theorem argsort_nodup {α : Type} [LinearOrder α] (scores : List α) :
    (argsort scores).Nodup :=
  (argsort_perm_range scores).nodup_iff.2 (List.nodup_range _)

theorem mem_argsort {α : Type} [LinearOrder α] (scores : List α) (g : ℕ) :
    g ∈ argsort scores ↔ g < scores.length := by
  rw [(argsort_perm_range scores).mem_iff, List.mem_range]

theorem length_argsort {α : Type} [LinearOrder α] (scores : List α) :
    (argsort scores).length = scores.length := by
  rw [(argsort_perm_range scores).length_eq, List.length_range]

theorem sliceLast_sublist {α : Type} (l : List α) (k : ℕ) :
    List.Sublist (sliceLast l k) l := by
  unfold sliceLast
  split
  · exact List.Sublist.refl l
  · exact List.drop_sublist _ l

theorem length_sliceLast_of_pos {α : Type} (l : List α) (k : ℕ) (hk : 1 ≤ k) :
    (sliceLast l k).length = min k l.length := by
  unfold sliceLast
  rw [if_neg (by omega)]
  rw [List.length_drop]
  omega

theorem sliceLast_subset_succ {α : Type} (l : List α) (k : ℕ) (hk : 1 ≤ k) :
    ∀ a ∈ sliceLast l k, a ∈ sliceLast l (k + 1) := by
  intro a ha
  unfold sliceLast at ha ⊢
  rw [if_neg (by omega)] at ha
  rw [if_neg (by omega)]
  have hstep : l.drop (l.length - k) =
      (l.drop (l.length - (k + 1))).drop ((l.length - k) - (l.length - (k + 1))) := by
    rw [List.drop_drop]
    congr 1
    omega
  rw [hstep] at ha
  exact (List.drop_sublist _ _).subset ha

theorem select_top_k_length {α : Type} [LinearOrder α] (scores : List α) (k : ℕ) :
    (select_top_k scores k).length = scores.length := by
  simp [select_top_k]

theorem select_top_k_getD {α : Type} [LinearOrder α] (scores : List α) (k g : ℕ)
    (hg : g < scores.length) :
    (select_top_k scores k).getD g false =
      decide (g ∈ sliceLast (argsort scores) k) := by
  unfold select_top_k
  rw [List.getD_eq_getElem?_getD, List.getElem?_map, List.getElem?_range hg]
  rfl

theorem select_top_k_getD_of_ge {α : Type} [LinearOrder α] (scores : List α)
    (k g : ℕ) (hg : scores.length ≤ g) :
    (select_top_k scores k).getD g false = false := by
  rw [List.getD_eq_getElem?_getD, List.getElem?_eq_none]
  · rfl
  · rw [select_top_k_length]; exact hg

theorem count_true_select_top_k {α : Type} [LinearOrder α] (scores : List α)
    (k : ℕ) :
    (select_top_k scores k).count true = (sliceLast (argsort scores) k).length := by
  have hnodup : (sliceLast (argsort scores) k).Nodup :=
    (argsort_nodup scores).sublist (sliceLast_sublist _ _)
  have hmem : ∀ a ∈ sliceLast (argsort scores) k, a < scores.length := fun a ha =>
    (mem_argsort scores a).1 ((sliceLast_sublist _ _).subset ha)
  unfold select_top_k
  rw [List.count_eq_countP, List.countP_map]
  have hfun : ((· == true) ∘ fun g => decide (g ∈ sliceLast (argsort scores) k)) =
      fun g => decide (g ∈ sliceLast (argsort scores) k) := by
    funext g; simp
  rw [hfun, List.countP_eq_length_filter]
  refine List.Perm.length_eq ?_
  refine (List.perm_ext_iff_of_nodup ((List.nodup_range _).filter _) hnodup).2 ?_
  intro a
  simp only [List.mem_filter, List.mem_range, decide_eq_true_eq]
  exact ⟨fun h => h.2, fun h => ⟨hmem a h, h⟩⟩

/-! ### Claim C1 -/

/-- C1 as stated is false: for `k = 0` the Python slice `scores.argsort()[-0:]`
is the whole index list, so every gene is selected and the mask has
`len(scores)` true entries, not `min(0, len(scores)) = 0`.  Concretely, for
`scores = [0]` and `k = 0` the mask has one true entry. -/
theorem C1_counterexample :
    ¬ (select_top_k ([0] : List ℤ) 0).count true = min 0 ([0] : List ℤ).length := by
  decide

/-- C1 (amended): for every score vector and every k ≥ 1, `select_top_k`
returns a mask with exactly `min k (len scores)` true entries.  (At `k = 0`
the code instead selects every gene, because the Python slice `[-0:]` is the
whole array.) -/
theorem C1_select_top_k_true_count {α : Type} [LinearOrder α] (scores : List α)
    (k : ℕ) (hk : 1 ≤ k) :
    (select_top_k scores k).count true = min k scores.length := by
  rw [count_true_select_top_k, length_sliceLast_of_pos _ _ hk, length_argsort]

/-- Witness for C1's amended theorem at `scores = [3, 1, 2]`, `k = 2`. -/
theorem C1_witness :
    1 ≤ 2 ∧ (select_top_k ([3, 1, 2] : List ℤ) 2).count true =
      min 2 ([3, 1, 2] : List ℤ).length :=
  ⟨by decide, C1_select_top_k_true_count ([3, 1, 2] : List ℤ) 2 (by decide)⟩

/-! ### Claim C3 -/

/-- C3 as stated is false at `k = 0`: the Python slice `[-0:]` selects every
gene, so gene 0 is selected by `select_top_k([0,1], 0)` but not by
`select_top_k([0,1], 1)`. -/
theorem C3_counterexample :
    (select_top_k ([0, 1] : List ℤ) 0).getD 0 false = true ∧
      (select_top_k ([0, 1] : List ℤ) 1).getD 0 false = false := by
  decide

/-- C3 (amended): for every score vector and every k ≥ 1, every gene marked
true by `select_top_k scores k` is also marked true by
`select_top_k scores (k+1)`.  (At `k = 0` the inclusion fails, because the
Python slice `[-0:]` selects every gene.) -/
theorem C3_select_top_k_monotone {α : Type} [LinearOrder α] (scores : List α)
    (k g : ℕ) (hk : 1 ≤ k)
    (h : (select_top_k scores k).getD g false = true) :
    (select_top_k scores (k + 1)).getD g false = true := by
  by_cases hg : g < scores.length
  · rw [select_top_k_getD _ _ _ hg] at h
    rw [select_top_k_getD _ _ _ hg]
    rw [decide_eq_true_eq] at h
    rw [decide_eq_true_eq]
    exact sliceLast_subset_succ _ _ hk g h
  · rw [select_top_k_getD_of_ge _ _ _ (by omega)] at h
    exact absurd h (by simp)

/-- Witness for C3's amended theorem at `scores = [2, 9, 5]`, `k = 1`,
gene 1 (the top-1 gene, which stays selected at `k = 2`). -/
theorem C3_witness :
    1 ≤ 1 ∧ ((select_top_k ([2, 9, 5] : List ℤ) 1).getD 1 false = true →
      (select_top_k ([2, 9, 5] : List ℤ) 2).getD 1 false = true) :=
  ⟨by decide, fun h => C3_select_top_k_monotone ([2, 9, 5] : List ℤ) 1 1 (by decide) h⟩

/-! ### Claim C4 -/

/-- C4: if `k` exceeds the length of the score vector, every gene is
selected: the mask is true at every index. -/
theorem C4_select_top_k_all_true {α : Type} [LinearOrder α] (scores : List α)
    (k : ℕ) (hk : scores.length < k) :
    select_top_k scores k = List.replicate scores.length true := by
  unfold select_top_k
  rw [List.eq_replicate_iff]
  refine ⟨by simp, ?_⟩
  intro b hb
  rcases List.mem_map.1 hb with ⟨g, hg, rfl⟩
  rw [decide_eq_true_eq]
  unfold sliceLast
  rw [if_neg (by omega)]
  have hzero : (argsort scores).length - k = 0 := by
    rw [length_argsort]; omega
  rw [hzero, List.drop_zero]
  exact (mem_argsort scores g).2 (List.mem_range.1 hg)

/-- Witness for C4 at `scores = [5, 3]`, `k = 3`. -/
theorem C4_witness :
    ([5, 3] : List ℤ).length < 3 ∧
      select_top_k ([5, 3] : List ℤ) 3 = List.replicate 2 true :=
  ⟨by decide, C4_select_top_k_all_true ([5, 3] : List ℤ) 3 (by decide)⟩

/-! ### Claim C9 -/

theorem argsort_map_of_strictMono {α β : Type} [LinearOrder α] [LinearOrder β]
    (f : α → β) (hf : StrictMono f) (scores : List α) :
    argsort (scores.map f) = argsort scores := by
  unfold argsort
  rw [List.enum_map]
  have hiff : ∀ a ∈ scores.enum, ∀ b ∈ scores.enum,
      scoreLe a b ↔ scoreLe (Prod.map id f a) (Prod.map id f b) := by
    intro a _ b _
    unfold scoreLe
    simp only [Prod.map_fst, Prod.map_snd, id_eq]
    rw [hf.lt_iff_lt, hf.injective.eq_iff]
  rw [← List.map_insertionSort (scoreLe (α := α)) (scoreLe (α := β))
    (Prod.map id f) scores.enum hiff]
  rw [List.map_map]
  exact List.map_congr_left fun a _ => rfl

/-- C9: the selection mask depends only on the relative order of the scores:
applying any strictly increasing function elementwise leaves the mask
unchanged. -/
theorem C9_select_top_k_order_invariant {α β : Type} [LinearOrder α]
    [LinearOrder β] (f : α → β) (hf : StrictMono f) (scores : List α) (k : ℕ) :
    select_top_k (scores.map f) k = select_top_k scores k := by
  unfold select_top_k
  rw [argsort_map_of_strictMono f hf, List.length_map]

/-- Witness for C9 with the strictly increasing map `x ↦ x + 1` on
`scores = [1, 5, 2]`, `k = 2`. -/
theorem C9_witness :
    StrictMono (fun x : ℤ => x + 1) ∧
      select_top_k (([1, 5, 2] : List ℤ).map (fun x => x + 1)) 2 =
        select_top_k ([1, 5, 2] : List ℤ) 2 :=
  have hm : StrictMono (fun x : ℤ => x + 1) := fun a b h => by
    simpa using add_lt_add_right h 1
  ⟨hm, C9_select_top_k_order_invariant (fun x => x + 1) hm ([1, 5, 2] : List ℤ) 2⟩

/-! ### Claim C10 -/

theorem enum_snd_eq_get {α : Type} (scores : List α) (p : ℕ × α)
    (hp : p ∈ scores.enum) (h : p.1 < scores.length) :
    p.2 = scores.get ⟨p.1, h⟩ := by
  have hsome := List.mem_enum_iff_getElem?.1 hp
  rw [List.getElem?_eq_getElem h] at hsome
  simpa [List.get_eq_getElem] using hsome.symm

/-- C10: the selection never skips a strictly better gene: if gene `i` is
selected and gene `j` has a strictly greater score, then gene `j` is
selected too (for every `k`, however ties are ordered). -/
theorem C10_no_skip {α : Type} [LinearOrder α] (scores : List α) (k i j : ℕ)
    (hi : i < scores.length) (hj : j < scores.length)
    (hlt : scores.get ⟨i, hi⟩ < scores.get ⟨j, hj⟩)
    (hsel : (select_top_k scores k).getD i false = true) :
    (select_top_k scores k).getD j false = true := by
  rw [select_top_k_getD _ _ _ hi, decide_eq_true_eq] at hsel
  rw [select_top_k_getD _ _ _ hj, decide_eq_true_eq]
  by_cases hk : k = 0
  · subst hk
    unfold sliceLast
    rw [if_pos rfl]
    exact (mem_argsort scores j).2 hj
  · unfold sliceLast at hsel ⊢
    rw [if_neg hk] at hsel ⊢
    have hdrop : ∀ m, (argsort scores).drop m =
        ((List.insertionSort (scoreLe (α := α)) scores.enum).drop m).map
          Prod.fst := by
      intro m
      unfold argsort
      rw [← List.map_drop]
    rw [hdrop] at hsel ⊢
    rcases List.mem_map.1 hsel with ⟨p, hpdrop, hpi⟩
    by_contra hjnot
    have hjarg : j ∈ ((List.insertionSort (scoreLe (α := α)) scores.enum).take
          ((argsort scores).length - k) ++
        (List.insertionSort (scoreLe (α := α)) scores.enum).drop
          ((argsort scores).length - k)).map Prod.fst := by
      rw [List.take_append_drop]
      exact (mem_argsort scores j).2 hj
    rw [List.map_append, List.mem_append] at hjarg
    rcases hjarg with hjtake | hjdrop
    · rcases List.mem_map.1 hjtake with ⟨q, hqtake, hqj⟩
      have hsorted : ((List.insertionSort (scoreLe (α := α)) scores.enum).take
            ((argsort scores).length - k) ++
          (List.insertionSort (scoreLe (α := α)) scores.enum).drop
            ((argsort scores).length - k)).Pairwise (scoreLe (α := α)) := by
        rw [List.take_append_drop]
        exact List.sorted_insertionSort (scoreLe (α := α)) scores.enum
      have hqp : scoreLe q p := (List.pairwise_append.1 hsorted).2.2 q hqtake p hpdrop
      have hpenum : p ∈ scores.enum :=
        (List.mem_insertionSort _).1 ((List.drop_sublist _ _).subset hpdrop)
      have hqenum : q ∈ scores.enum :=
        (List.mem_insertionSort _).1 ((List.take_sublist _ _).subset hqtake)
      have hpv : p.2 = scores.get ⟨i, hi⟩ := by
        have := enum_snd_eq_get scores p hpenum (hpi ▸ hi)
        simpa [hpi] using this
      have hqv : q.2 = scores.get ⟨j, hj⟩ := by
        have := enum_snd_eq_get scores q hqenum (hqj ▸ hj)
        simpa [hqj] using this
      rcases hqp with hv | ⟨hv, _⟩
      · rw [hpv, hqv] at hv
        exact absurd hlt (lt_asymm hv)
      · rw [hpv, hqv] at hv
        exact absurd hlt (hv ▸ lt_irrefl _)
    · exact hjnot hjdrop

/-- Witness for C10 at `scores = [2, 9, 5]`, `k = 2`: gene 2 (score 5) is
selected, gene 1 has the strictly greater score 9, and is selected too. -/
theorem C10_witness :
    (select_top_k ([2, 9, 5] : List ℤ) 2).getD 1 false = true :=
  C10_no_skip ([2, 9, 5] : List ℤ) 2 2 1 (by decide) (by decide) (by decide)
    (by decide)

/-! ### The deviance statistic (`rank` of the spec)

The deviance computation itself is the call
`sce = devianceFeatureSelection(adata, assay="X")` into the external R
package `scry`; that package is not part of this repository, so the
statistic is modelled from the spec. -/

/-- Modelled from the spec: the per-gene deviance statistic of
`devianceFeatureSelection` (external R package `scry`, cell `a46eb792`,
not in this repository).  Per the spec's algorithm — "for each gene, fit a
null (constant-expression) model over cells via the multinomial/binomial
likelihood in closed form, compute deviance as twice the log-likelihood
ratio between the saturated (per-cell) model and the null model" — the
deviance of a gene column `y` over `m = y.length` cells is
`2 * Σ_i y_i * log (y_i / ybar)` where `ybar = (Σ_i y_i) / m` is the null
model's constant expression level.  A zero count contributes `0 * log _ = 0`
and the all-zero column has deviance `0`. -/
noncomputable def colDeviance (y : List ℕ) : ℝ :=
  2 * (y.map fun c : ℕ =>
    (c : ℝ) * Real.log ((c : ℝ) * (y.length : ℝ) / (y.sum : ℝ))).sum

/-- Modelled from the spec: `rank(counts)` of the Deviance Ranker.  The
input is the cells × genes matrix of raw counts as loaded (numeric entries);
`rank` validates that every entry is a non-negative integer — otherwise it
rejects with a validation error and produces no partial result — and
returns the per-gene deviance vector. -/
noncomputable def rank (m n : ℕ) (M : Fin m → Fin n → ℚ) :
    Except String (Fin n → ℝ) :=
  if ∀ i j, 0 ≤ M i j ∧ (M i j).den = 1 then
    .ok fun j => colDeviance ((List.finRange m).map fun i => (M i j).num.toNat)
  else .error "invalid counts: negative or non-integer entry"

theorem colDeviance_const (m c : ℕ) :
    colDeviance (List.replicate m c) = 0 := by
  unfold colDeviance
  rw [List.map_replicate, List.sum_replicate, List.length_replicate,
    List.sum_replicate, smul_eq_mul]
  rcases Nat.eq_zero_or_pos m with hm | hm
  · subst hm; simp
  rcases Nat.eq_zero_or_pos c with hc | hc
  · subst hc; simp
  have harg : (c : ℝ) * (m : ℝ) / ((m * c : ℕ) : ℝ) = 1 := by
    rw [div_eq_one_iff_eq]
    · push_cast; ring
    · push_cast
      positivity
  rw [harg, Real.log_one]
  simp

theorem sum_map_sub_const (y : List ℕ) (μ : ℝ) :
    (y.map fun c : ℕ => (c : ℝ) - μ).sum = (y.sum : ℝ) - (y.length : ℝ) * μ := by
  induction y with
  | nil => simp
  | cons a t ih =>
    simp only [List.map_cons, List.sum_cons, ih, List.sum_cons, List.length_cons]
    push_cast
    ring

theorem colDeviance_nonneg (y : List ℕ) : 0 ≤ colDeviance y := by
  unfold colDeviance
  rcases Nat.eq_zero_or_pos y.sum with hN | hN
  · have hzero : ∀ c ∈ y, (c : ℝ) * Real.log ((c : ℝ) * (y.length : ℝ) / (y.sum : ℝ)) =
        (fun _ : ℕ => (0 : ℝ)) c := by
      intro c hc
      have hc0 : c = 0 := by
        have := List.sum_eq_zero_iff.1 hN c hc
        exact this
      subst hc0
      simp
    rw [List.map_congr_left hzero, List.map_const']
    simp
  · have hm : 0 < y.length := by
      rcases y with _ | ⟨a, t⟩
      · simp at hN
      · simp
    have hμpos : 0 < (y.sum : ℝ) / (y.length : ℝ) :=
      div_pos (by exact_mod_cast hN) (by exact_mod_cast hm)
    have hpoint : ∀ c ∈ y,
        (fun c : ℕ => (c : ℝ) - (y.sum : ℝ) / (y.length : ℝ)) c ≤
        (fun c : ℕ => (c : ℝ) * Real.log ((c : ℝ) * (y.length : ℝ) / (y.sum : ℝ))) c := by
      intro c _
      simp only []
      rcases Nat.eq_zero_or_pos c with hc | hc
      · subst hc
        simp only [Nat.cast_zero, zero_sub, zero_mul]
        linarith
      · have hcpos : (0 : ℝ) < (c : ℝ) := by exact_mod_cast hc
        have harg : (c : ℝ) * (y.length : ℝ) / (y.sum : ℝ) =
            (c : ℝ) / ((y.sum : ℝ) / (y.length : ℝ)) := by
          rw [div_div_eq_mul_div]
        rw [harg]
        have hlog := Real.log_le_sub_one_of_pos
          (div_pos hμpos hcpos)
        have hflip : Real.log ((y.sum : ℝ) / (y.length : ℝ) / (c : ℝ)) =
            - Real.log ((c : ℝ) / ((y.sum : ℝ) / (y.length : ℝ))) := by
          rw [Real.log_div (ne_of_gt hμpos) (ne_of_gt hcpos),
            Real.log_div (ne_of_gt hcpos) (ne_of_gt hμpos)]
          ring
        rw [hflip] at hlog
        have hmul := mul_le_mul_of_nonneg_left hlog (le_of_lt hcpos)
        have hc0 : (c : ℝ) ≠ 0 := ne_of_gt hcpos
        have hcancel : (c : ℝ) * ((y.sum : ℝ) / (y.length : ℝ) / (c : ℝ)) =
            (y.sum : ℝ) / (y.length : ℝ) := by
          rw [mul_comm, div_mul_cancel₀ _ hc0]
        have hexp : (c : ℝ) * ((y.sum : ℝ) / (y.length : ℝ) / (c : ℝ) - 1) =
            (y.sum : ℝ) / (y.length : ℝ) - (c : ℝ) := by
          rw [mul_sub, hcancel, mul_one]
        rw [hexp] at hmul
        have hneg : (c : ℝ) * -Real.log ((c : ℝ) / ((y.sum : ℝ) / (y.length : ℝ))) =
            -((c : ℝ) * Real.log ((c : ℝ) / ((y.sum : ℝ) / (y.length : ℝ)))) := by
          ring
        rw [hneg] at hmul
        linarith
    have hsum := List.sum_le_sum hpoint
    have hzero : (y.map fun c : ℕ => (c : ℝ) - (y.sum : ℝ) / (y.length : ℝ)).sum = 0 := by
      rw [sum_map_sub_const]
      rw [mul_div_cancel₀]
      · ring
      · have : (0 : ℝ) < (y.length : ℝ) := by exact_mod_cast hm
        exact ne_of_gt this
    rw [hzero] at hsum
    linarith

/-! ### Claim C6 -/

/-- C6: error behaviour of `rank`.  A gene axis of length zero yields an
empty (successful) result; the computation fails exactly when the matrix
contains a negative or non-integer entry — in that case it is rejected with
a validation error and no partial result (the `Except` is an error carrying
no result), and there is no other error condition. -/
theorem C6_rank_error_conditions :
    (∀ (m : ℕ) (M0 : Fin m → Fin 0 → ℚ), rank m 0 M0 = .ok Fin.elim0) ∧
      ∀ (m n : ℕ) (M : Fin m → Fin n → ℚ),
        ((∃ e, rank m n M = .error e) ↔
          ∃ i j, M i j < 0 ∨ (M i j).den ≠ 1) := by
  constructor
  · intro m M0
    unfold rank
    rw [if_pos (fun i j => j.elim0)]
    congr 1
    funext j
    exact j.elim0
  · intro m n M
    unfold rank
    by_cases h : ∀ i j, 0 ≤ M i j ∧ (M i j).den = 1
    · rw [if_pos h]
      constructor
      · rintro ⟨e, he⟩
        exact absurd he (by simp)
      · rintro ⟨i, j, hbad | hbad⟩
        · exact absurd (h i j).1 (not_le.2 hbad)
        · exact absurd (h i j).2 hbad
    · rw [if_neg h]
      refine ⟨fun _ => ?_, fun _ => ⟨_, rfl⟩⟩
      push_neg at h
      rcases h with ⟨i, j, hij⟩
      by_cases hle : 0 ≤ M i j
      · exact ⟨i, j, Or.inr (hij hle)⟩
      · exact ⟨i, j, Or.inl (not_le.1 hle)⟩

/-- Witness for C6: a matrix with one cell and no genes is ranked to the
empty result. -/
theorem C6_witness :
    rank 1 0 (fun _ => Fin.elim0) = .ok Fin.elim0 :=
  C6_rank_error_conditions.1 1 (fun _ => Fin.elim0)

/-! ### Claim C7 -/

/-- C7: for every valid count matrix with a constant-expression gene column
(the same count in every cell, including the all-zero column), `rank`
succeeds and gives that gene the deviance 0, which is the theoretical
minimum of the statistic (the statistic is everywhere non-negative). -/
theorem C7_rank_constant_column (m n : ℕ) (M : Fin m → Fin n → ℚ)
    (j : Fin n) (hval : ∀ i j', 0 ≤ M i j' ∧ (M i j').den = 1)
    (hconst : ∀ i i', M i j = M i' j) :
    ∃ f, rank m n M = .ok f ∧ f j = 0 ∧ ∀ y : List ℕ, 0 ≤ colDeviance y := by
  refine ⟨_, by unfold rank; rw [if_pos hval], ?_, colDeviance_nonneg⟩
  rcases Nat.eq_zero_or_pos m with hm | hm
  · subst hm
    have : (List.finRange 0).map (fun i => (M i j).num.toNat) =
        List.replicate 0 0 := rfl
    rw [this, colDeviance_const]
  · have i0 : Fin m := ⟨0, hm⟩
    have hrepl : (List.finRange m).map (fun i => (M i j).num.toNat) =
        List.replicate m ((M i0 j).num.toNat) := by
      rw [List.eq_replicate_iff]
      refine ⟨by simp, ?_⟩
      intro x hx
      rcases List.mem_map.1 hx with ⟨i, _, rfl⟩
      rw [hconst i i0]
    rw [hrepl, colDeviance_const]

/-- Witness for C7 at the spec's example matrix [[5,0],[5,0],[5,0]]
(2 genes over 3 cells), whose gene 0 column is constantly 5. -/
theorem C7_witness :
    ∃ f, rank 3 2 (fun _ j => if j.1 = 0 then (5 : ℚ) else 0) = .ok f ∧
      f 0 = 0 ∧ ∀ y : List ℕ, 0 ≤ colDeviance y :=
  C7_rank_constant_column 3 2 (fun _ j => if j.1 = 0 then (5 : ℚ) else 0) 0
    (by decide) (fun i i' => rfl)

/-! ### Claim C8 -/

/-- The spec's example count matrix [[1,0],[0,5],[9,0]] (3 cells, 2 genes). -/
def exampleCounts : Fin 3 → Fin 2 → ℚ := fun i j =>
  if j.1 = 0 then (if i.1 = 0 then 1 else if i.1 = 1 then 0 else 9)
  else (if i.1 = 1 then 5 else 0)

/-- The 3 × 1 matrix holding just gene 0's column of `exampleCounts`. -/
def exampleColOnly : Fin 3 → Fin 1 → ℚ := fun i _ => exampleCounts i 0

theorem rank_exampleCounts :
    rank 3 2 exampleCounts = .ok fun j =>
      colDeviance ((List.finRange 3).map fun i => (exampleCounts i j).num.toNat) := by
  unfold rank
  rw [if_pos (by decide)]

theorem rank_exampleColOnly :
    rank 3 1 exampleColOnly = .ok fun j =>
      colDeviance ((List.finRange 3).map fun i => (exampleColOnly i j).num.toNat) := by
  unfold rank
  rw [if_pos (by decide)]

theorem exampleCounts_col0 :
    ((List.finRange 3).map fun i => (exampleCounts i 0).num.toNat) = [1, 0, 9] := by
  decide

theorem exampleCounts_col1 :
    ((List.finRange 3).map fun i => (exampleCounts i 1).num.toNat) = [0, 5, 0] := by
  decide

theorem ten_log_ten_lt : 10 * Real.log 10 < 23 * Real.log 3 := by
  have h1 : Real.log ((10 : ℝ) ^ (10 : ℕ)) < Real.log ((3 : ℝ) ^ (23 : ℕ)) := by
    apply Real.log_lt_log (by positivity)
    norm_num
  rw [Real.log_pow, Real.log_pow] at h1
  push_cast at h1
  linarith

theorem deviance_example_lt : colDeviance [0, 5, 0] < colDeviance [1, 0, 9] := by
  unfold colDeviance
  simp only [List.map_cons, List.map_nil, List.sum_cons, List.sum_nil,
    List.length_cons, List.length_nil]
  norm_num
  have h310 : Real.log ((3 : ℝ) / 10) = Real.log 3 - Real.log 10 :=
    Real.log_div (by norm_num) (by norm_num)
  have h2710 : Real.log ((27 : ℝ) / 10) = 3 * Real.log 3 - Real.log 10 := by
    rw [Real.log_div (by norm_num) (by norm_num)]
    rw [show (27 : ℝ) = 3 ^ (3 : ℕ) by norm_num, Real.log_pow]
    push_cast
    ring
  rw [h310, h2710]
  nlinarith [ten_log_ten_lt]

theorem rank_ok_apply (m n : ℕ) (M : Fin m → Fin n → ℚ) (f : Fin n → ℝ)
    (h : rank m n M = .ok f) (j : Fin n) :
    f j = colDeviance ((List.finRange m).map fun i => (M i j).num.toNat) := by
  unfold rank at h
  split at h
  · exact (congrFun (Except.ok.inj h) j).symm
  · exact absurd h (by simp)

/-- C8 (amended): `rank` computes each gene's score from that gene's column
alone — independently of all other genes' columns — in closed form as twice
the log-likelihood ratio between the saturated per-cell model and the
constant-expression null model; but on the spec's example counts
[[1,0],[0,5],[9,0]] it is gene 0's deviance that strictly exceeds gene 1's
(the direction claimed by the spec is reversed). -/
theorem C8_rank_per_gene :
    (∀ (m n n' : ℕ) (M : Fin m → Fin n → ℚ) (M' : Fin m → Fin n' → ℚ)
        (j : Fin n) (j' : Fin n') (f : Fin n → ℝ) (f' : Fin n' → ℝ),
        rank m n M = .ok f → rank m n' M' = .ok f' →
        (∀ i, M i j = M' i j') → f j = f' j') ∧
      ∃ g, rank 3 2 exampleCounts = .ok g ∧ g 1 < g 0 := by
  constructor
  · intro m n n' M M' j j' f f' hf hf' hcol
    rw [rank_ok_apply m n M f hf j, rank_ok_apply m n' M' f' hf' j']
    congr 1
    exact List.map_congr_left fun i _ => by rw [hcol i]
  · refine ⟨_, rank_exampleCounts, ?_⟩
    show colDeviance ((List.finRange 3).map fun i => (exampleCounts i 1).num.toNat) <
      colDeviance ((List.finRange 3).map fun i => (exampleCounts i 0).num.toNat)
    rw [exampleCounts_col0, exampleCounts_col1]
    exact deviance_example_lt

/-- C8's concrete example is false as stated: on counts [[1,0],[0,5],[9,0]]
the ranker succeeds and gene 1's deviance does NOT exceed gene 0's (in fact
gene 1's is strictly smaller). -/
theorem C8_counterexample :
    ∃ g, rank 3 2 exampleCounts = .ok g ∧ ¬ g 0 < g 1 := by
  refine ⟨_, rank_exampleCounts, ?_⟩
  show ¬ colDeviance ((List.finRange 3).map fun i => (exampleCounts i 0).num.toNat) <
    colDeviance ((List.finRange 3).map fun i => (exampleCounts i 1).num.toNat)
  rw [exampleCounts_col0, exampleCounts_col1]
  exact not_lt_of_gt deviance_example_lt

/-- Witness for C8's independence clause: gene 0 of the full example matrix
gets the same deviance as the single gene of the matrix containing only
that column. -/
theorem C8_witness :
    colDeviance ((List.finRange 3).map fun i => (exampleCounts i 0).num.toNat) =
      colDeviance ((List.finRange 3).map fun i => (exampleColOnly i 0).num.toNat) :=
  C8_rank_per_gene.1 3 2 1 exampleCounts exampleColOnly 0 0 _ _
    rank_exampleCounts rank_exampleColOnly (fun _ => rfl)

/-! ### Claim C5 — the pipeline's frame condition

The annotated structure (`adata`) carries the count matrix `X` and the
per-gene metadata table `var`, a sequence of named columns.  Assigning
`adata.var[name] = value` replaces the column in place if `name` already
exists and appends it at the end otherwise (pandas assignment semantics). -/

/-- A per-gene metadata column: numeric or boolean. -/
inductive ColVal where
  | realCol : List ℝ → ColVal
  | boolCol : List Bool → ColVal

/-- The annotated data structure of the notebook: raw count matrix plus the
per-gene metadata table (named columns). -/
structure AnnData where
  cells : ℕ
  genes : ℕ
  X : Fin cells → Fin genes → ℚ
  var : List (String × ColVal)

/-- The assignment `adata.var[nm] = v` with pandas semantics: replace the column named
`nm` in place if present, append it at the end otherwise. -/
def setCol (var : List (String × ColVal)) (nm : String) (v : ColVal) :
    List (String × ColVal) :=
  if var.any fun p => p.1 == nm then
    var.map fun p => if p.1 = nm then (nm, v) else p
  else var ++ [(nm, v)]

/-- The per-gene binomial deviance vector of the structure's count matrix
(the `binomial_deviance` vector exported from the R side). -/
noncomputable def devVec (a : AnnData) : List ℝ :=
  (List.finRange a.genes).map fun j =>
    colDeviance ((List.finRange a.cells).map fun i => (a.X i j).num.toNat)

/-- The notebook pipeline on the in-memory structure (cells `a46eb792` and
`e349f348`): compute the deviance vector, build the top-k mask, assign
`adata.var["highly_deviant"] = mask` and then
`adata.var["binomial_deviance"] = binomial_deviance`.  The count matrix is
not touched. -/
noncomputable def pipeline (k : ℕ) (a : AnnData) : AnnData :=
  { a with
    var := setCol
      (setCol a.var "highly_deviant"
        (ColVal.boolCol (select_top_k (devVec a) k)))
      "binomial_deviance" (ColVal.realCol (devVec a)) }

theorem lookup_map_set (t : List (String × ColVal)) (nm nm' : String)
    (v : ColVal) (h : nm' ≠ nm) :
    (t.map fun p => if p.1 = nm then (nm, v) else p).lookup nm' =
      t.lookup nm' := by
  induction t with
  | nil => rfl
  | cons p t ih =>
    rw [List.map_cons]
    by_cases hp : p.1 = nm
    · rw [if_pos hp]
      rw [List.lookup_cons, List.lookup_cons]
      rw [beq_eq_false_iff_ne.2 h, beq_eq_false_iff_ne.2 (hp ▸ h)]
      exact ih
    · rw [if_neg hp]
      rw [List.lookup_cons, List.lookup_cons]
      exact match hbeq : (nm' == p.1) with
        | true => rfl
        | false => ih

theorem lookup_append_single (t : List (String × ColVal)) (nm nm' : String)
    (v : ColVal) (h : nm' ≠ nm) :
    (t ++ [(nm, v)]).lookup nm' = t.lookup nm' := by
  induction t with
  | nil =>
    rw [List.nil_append]
    rw [List.lookup_cons]
    rw [beq_eq_false_iff_ne.2 h]
  | cons p t ih =>
    rw [List.cons_append, List.lookup_cons, List.lookup_cons]
    exact match hbeq : (nm' == p.1) with
      | true => rfl
      | false => ih

theorem setCol_lookup_ne (var : List (String × ColVal)) (nm nm' : String)
    (v : ColVal) (h : nm' ≠ nm) :
    (setCol var nm v).lookup nm' = var.lookup nm' := by
  unfold setCol
  split
  · exact lookup_map_set var nm nm' v h
  · exact lookup_append_single var nm nm' v h

theorem setCol_fresh (var : List (String × ColVal)) (nm : String)
    (v : ColVal) (h : (var.any fun p => p.1 == nm) = false) :
    setCol var nm v = var ++ [(nm, v)] := by
  unfold setCol
  rw [if_neg (by rw [h]; exact Bool.false_ne_true)]

/-- C5 (amended): the pipeline leaves the count matrix `X` (and the shape)
of the structure unchanged; every pre-existing metadata column other than
the two target columns `"highly_deviant"` and `"binomial_deviance"` is
unchanged; and when neither target column pre-exists, the effect on the
metadata table is exactly to append those two columns.  (A pre-existing
column named `"highly_deviant"` or `"binomial_deviance"` is overwritten,
not preserved — see the counterexample.) -/
theorem C5_pipeline_frame (k : ℕ) (a : AnnData) :
    (pipeline k a).X = a.X ∧
      (∀ nm : String, nm ≠ "highly_deviant" → nm ≠ "binomial_deviance" →
        (pipeline k a).var.lookup nm = a.var.lookup nm) ∧
      ((a.var.any fun p => p.1 == "highly_deviant") = false →
        (a.var.any fun p => p.1 == "binomial_deviance") = false →
        (pipeline k a).var = a.var ++
          [("highly_deviant", ColVal.boolCol (select_top_k (devVec a) k)),
            ("binomial_deviance", ColVal.realCol (devVec a))]) := by
  refine ⟨rfl, ?_, ?_⟩
  · intro nm h1 h2
    show (setCol (setCol a.var "highly_deviant" _) "binomial_deviance" _).lookup nm =
      a.var.lookup nm
    rw [setCol_lookup_ne _ _ _ _ h2, setCol_lookup_ne _ _ _ _ h1]
  · intro h1 h2
    show setCol (setCol a.var "highly_deviant" _) "binomial_deviance" _ = _
    rw [setCol_fresh _ _ _ h1]
    rw [setCol_fresh]
    · rw [List.append_assoc]
      rfl
    · rw [List.any_append, h2]
      rfl

/-- The written output of a pre-existing column named `"highly_deviant"` is
NOT unchanged: starting from a structure whose `var` already holds
`("highly_deviant", realCol [])`, the pipeline overwrites it with the
boolean mask. -/
theorem C5_counterexample :
    ((pipeline 1 ⟨0, 0, fun i => i.elim0,
        [("highly_deviant", ColVal.realCol [])]⟩).var.lookup "highly_deviant") ≠
      (AnnData.var ⟨0, 0, fun i => i.elim0,
        [("highly_deviant", ColVal.realCol [])]⟩).lookup "highly_deviant" := by
  intro h
  have h1 : ((pipeline 1 ⟨0, 0, fun i => i.elim0,
      [("highly_deviant", ColVal.realCol [])]⟩).var.lookup "highly_deviant") =
      some (ColVal.boolCol []) := rfl
  have h2 : (AnnData.var ⟨0, 0, fun i => i.elim0,
      [("highly_deviant", ColVal.realCol [])]⟩).lookup "highly_deviant" =
      some (ColVal.realCol []) := rfl
  rw [h1, h2] at h
  simp at h

/-- Witness for C5's amended theorem: a column named `"n_cells"` is
untouched by the pipeline. -/
theorem C5_witness :
    (pipeline 1 ⟨0, 0, fun i => i.elim0,
        [("n_cells", ColVal.realCol [])]⟩).var.lookup "n_cells" =
      (AnnData.var ⟨0, 0, fun i => i.elim0,
        [("n_cells", ColVal.realCol [])]⟩).lookup "n_cells" :=
  (C5_pipeline_frame 1 ⟨0, 0, fun i => i.elim0,
    [("n_cells", ColVal.realCol [])]⟩).2.1 "n_cells" (by decide) (by decide)
